import Mathlib

/-!
Verification of the scripts-folder file-system provider of the
vscode-database-client repository.

The provider translates POSIX-style file operations (stat, readdir,
writeFile, rename, delete, watch) into the editor-defined file-system
interface, and presents a sorted tree of a root directory.  The external
collaborators (the Node `fs` module and the host `vscode.workspace.fs`
layer) are modelled over an in-memory directory tree `FsNode`; every
function of the repository itself is translated line by line from the
source (`FileSystemProvider` and the `_` utilities namespace).
-/

namespace Scripts

/-- Absolute paths are modelled as lists of path segments. -/
abbrev Path := List String

/-- One node of the modelled file-system tree: a plain file with its byte
content, a directory with an ordered association list of named children,
a symbolic link, or an object of unknown type. -/
inductive FsNode where
  | file (content : List Nat)
  | dir (children : List (String × FsNode))
  | symlink
  | unknown

/-- Coarse type tag of the editor file-system interface
(`vscode.FileType`). -/
inductive FileType where
  | Unknown
  | File
  | Directory
  | SymbolicLink
deriving DecidableEq, Repr

/-- Classification tag of a Change Event (`vscode.FileChangeType`). -/
inductive FileChangeType where
  | Changed
  | Created
  | Deleted
deriving DecidableEq, Repr

/-- An OS-level error carrying the `errno`-style code string. -/
structure OsError where
  code : String
deriving DecidableEq, Repr

/-- Errors of the editor file-system layer: the four classified
`vscode.FileSystemError` kinds, a passed-through OS error, and a plain
uncoded error (used by host-internal failures). -/
inductive Err where
  | FileNotFound
  | FileIsADirectory
  | FileExists
  | NoPermissions
  | os (e : OsError)
  | raw (msg : String)
deriving DecidableEq, Repr

/-- Look up the first child with the given name in a children list. -/
def lookupChild : List (String × FsNode) → String → Option FsNode
  | [], _ => none
  | (name, c) :: cs, s => if name = s then some c else lookupChild cs s

mutual
/-- Resolve a path inside a tree, returning the node it denotes. -/
def FsNode.find : FsNode → Path → Option FsNode
  | n, [] => some n
  | .dir cs, s :: rest => findIn cs s rest
  | _, _ :: _ => none

/-- Resolve a path whose first segment is looked up in a children list. -/
def findIn : List (String × FsNode) → String → Path → Option FsNode
  | [], _, _ => none
  | (name, c) :: cs, s, rest => if name = s then c.find rest else findIn cs s rest
end

mutual
/-- Replace (or create) the node at a path.  The first child of the
matching name is replaced; a missing final segment is appended.  Callers
check the relevant preconditions first, mirroring the OS calls. -/
def FsNode.setAt : FsNode → Path → FsNode → FsNode
  | _, [], m => m
  | .dir cs, s :: rest, m => .dir (setAtIn cs s rest m)
  | n, _ :: _, _ => n

/-- Child-list worker of `FsNode.setAt`. -/
def setAtIn : List (String × FsNode) → String → Path → FsNode → List (String × FsNode)
  | [], s, rest, m => [(s, FsNode.setAt (.dir []) rest m)]
  | (name, c) :: cs, s, rest, m =>
    if name = s then (name, c.setAt rest m) :: cs
    else (name, c) :: setAtIn cs s rest m
end

mutual
/-- Remove the entry at a path (first occurrence of each segment name);
paths that do not resolve leave the tree unchanged. -/
def FsNode.removeAt : FsNode → Path → FsNode
  | n, [] => n
  | .dir cs, s :: rest => .dir (removeAtIn cs s rest)
  | n, _ :: _ => n

/-- Child-list worker of `FsNode.removeAt`. -/
def removeAtIn : List (String × FsNode) → String → Path → List (String × FsNode)
  | [], _, _ => []
  | (name, c) :: cs, s, rest =>
    if name = s then
      match rest with
      | [] => cs
      | _ :: _ => (name, c.removeAt rest) :: cs
    else (name, c) :: removeAtIn cs s rest
end

/-- Does a name occur among the keys of a children list? -/
def keyMem (s : String) : List (String × FsNode) → Bool
  | [] => false
  | (name, _) :: cs => name = s || keyMem s cs

mutual
/-- Well-formedness of a tree: inside every directory the child names
are pairwise distinct, as in a real file system. -/
def FsNode.wf : FsNode → Bool
  | .dir cs => wfList cs
  | _ => true

/-- Well-formedness of a children list. -/
def wfList : List (String × FsNode) → Bool
  | [] => true
  | (name, c) :: cs => !(keyMem name cs) && FsNode.wf c && wfList cs
end

mutual
/-- Is every node of the tree a plain file or a directory?  (No symbolic
links and no nodes of unknown type.) -/
def FsNode.clean : FsNode → Bool
  | .file _ => true
  | .dir cs => cleanList cs
  | _ => false

/-- Cleanliness of a children list. -/
def cleanList : List (String × FsNode) → Bool
  | [] => true
  | (_, c) :: cs => FsNode.clean c && cleanList cs
end

mutual
/-- Recursion fuel that suffices for a recursive delete of the node
(embedding machinery only; the source recursion is unbounded). -/
def FsNode.need : FsNode → Nat
  | .dir cs => 1 + needList cs
  | _ => 1

/-- Fuel that suffices for deleting every child of a children list. -/
def needList : List (String × FsNode) → Nat
  | [] => 0
  | (_, c) :: cs => 1 + FsNode.need c + needList cs
end

/-- Executable prefix test on paths. -/
def pathLeq : Path → Path → Bool
  | [], _ => true
  | _ :: _, [] => false
  | a :: as, b :: bs => a = b && pathLeq as bs

/-- The `vscode.FileType` classification of a modelled node. -/
def fileTypeOf : FsNode → FileType
  | .file _ => .File
  | .dir _ => .Directory
  | .symlink => .SymbolicLink
  | .unknown => .Unknown

/-- Metadata snapshot of the Node `fs.Stats` object: the type predicates
and the size (time stamps are not needed by any claim). -/
structure Stats where
  isFile : Bool
  isDirectory : Bool
  isSymbolicLink : Bool
  size : Nat
deriving DecidableEq, Repr

/-- The `fs.Stats` snapshot of a modelled node. -/
def statsOf : FsNode → Stats
  | .file c => ⟨true, false, false, c.length⟩
  | .dir _ => ⟨false, true, false, 0⟩
  | .symlink => ⟨false, false, true, 0⟩
  | .unknown => ⟨false, false, false, 0⟩

/-- Type getter of the `FileStat` wrapper class (source lines 153-161):
file, else directory, else symbolic link, else unknown. -/
def FileStat.type (fsStat : Stats) : FileType :=
  if fsStat.isFile then .File
  else if fsStat.isDirectory then .Directory
  else if fsStat.isSymbolicLink then .SymbolicLink
  else .Unknown

/-- Error classification of the `_` utilities namespace (source lines
24-42): ENOENT, EISDIR, EEXIST, EPERM and EACCES are mapped onto the
editor error kinds, every other error passes through unchanged. -/
def massageError (error : OsError) : Err :=
  if error.code = "ENOENT" then .FileNotFound
  else if error.code = "EISDIR" then .FileIsADirectory
  else if error.code = "EEXIST" then .FileExists
  else if error.code = "EPERM" || error.code = "EACCES" then .NoPermissions
  else .os error

/-- Promise settlement helper of the `_` namespace: a raised OS error is
rejected after classification, a result resolves unchanged. -/
def handleResult {α : Type} : Except OsError α → Except Err α
  | .error e => .error (massageError e)
  | .ok v => .ok v

/-- NFC normalization of the source is a no-op away from darwin; the
embedding models the non-darwin platforms. -/
def normalizeNFC (item : String) : String := item

/-- Node `fs.stat`: resolve the path or fail with ENOENT. -/
def fsStatOs (root : FsNode) (p : Path) : Except OsError Stats :=
  match root.find p with
  | none => .error ⟨"ENOENT"⟩
  | some n => .ok (statsOf n)

/-- Node `fs.readdir`: list the child names of a directory. -/
def fsReaddirOs (root : FsNode) (p : Path) : Except OsError (List String) :=
  match root.find p with
  | none => .error ⟨"ENOENT"⟩
  | some (.dir cs) => .ok (cs.map Prod.fst)
  | some _ => .error ⟨"ENOTDIR"⟩

/-- Node `fs.writeFile`: create or truncate the file at the path.  The
parent must already exist as a directory and the path must not denote a
directory. -/
def fsWritefileOs (root : FsNode) (p : Path) (content : List Nat) :
    Except OsError FsNode :=
  if p = [] then .error ⟨"EISDIR"⟩
  else
    match root.find p.dropLast with
    | some (.dir _) =>
      match root.find p with
      | some (.dir _) => .error ⟨"EISDIR"⟩
      | _ => .ok (root.setAt p (.file content))
    | _ => .error ⟨"ENOENT"⟩

/-- Node `fs.unlink`: remove a non-directory entry. -/
def fsUnlinkOs (root : FsNode) (p : Path) : Except OsError FsNode :=
  match root.find p with
  | none => .error ⟨"ENOENT"⟩
  | some (.dir _) => .error ⟨"EISDIR"⟩
  | some _ => .ok (root.removeAt p)

/-- Node `fs.rename`: move the entry at the old path to the new path.
The source must exist, the destination parent must be a directory, and
the destination must not lie inside the source. -/
def fsRenameOs (root : FsNode) (oldP newP : Path) : Except OsError FsNode :=
  match root.find oldP with
  | none => .error ⟨"ENOENT"⟩
  | some node =>
    if oldP = newP then .ok root
    else if pathLeq oldP newP then .error ⟨"EINVAL"⟩
    else
      match root.find newP.dropLast with
      | some (.dir _) => .ok ((root.removeAt oldP).setAt newP node)
      | _ => .error ⟨"ENOENT"⟩

/-- Wrapper `_.stat` (source lines 72-78). -/
def _stat (root : FsNode) (p : Path) : Except Err Stats :=
  handleResult (fsStatOs root p)

/-- Wrapper `_.readdir` with NFC normalization (source lines 64-70). -/
def readdir (root : FsNode) (p : Path) : Except Err (List String) :=
  handleResult ((fsReaddirOs root p).map (List.map normalizeNFC))

/-- Wrapper `_.writefile` (source lines 88-94). -/
def writefile (root : FsNode) (p : Path) (content : List Nat) : Except Err FsNode :=
  handleResult (fsWritefileOs root p content)

/-- Wrapper `_.exists` (source lines 96-100), built on `fs.exists`,
which probes the path and never raises. -/
def fsExists (root : FsNode) (p : Path) : Bool :=
  (root.find p).isSome

/-- Wrapper `_.rename` (source lines 135-141). -/
def rename (root : FsNode) (oldP newP : Path) : Except Err FsNode :=
  handleResult (fsRenameOs root oldP newP)

/-- Wrapper `_.unlink` (source lines 143-147). -/
def unlink (root : FsNode) (p : Path) : Except Err FsNode :=
  handleResult (fsUnlinkOs root p)

/-- Stat record of the host file-system layer. -/
structure VsFileStat where
  type : FileType
  size : Nat
deriving DecidableEq, Repr

/-- Modelled from the spec: `vscode.workspace.fs.stat` of the host
editor, which resolves the path to its type classification or fails
with the NotFound kind. -/
def wsStat (root : FsNode) (p : Path) : Except Err VsFileStat :=
  match root.find p with
  | none => .error Err.FileNotFound
  | some n => .ok ⟨fileTypeOf n, (statsOf n).size⟩

/-- Modelled from the spec: `vscode.workspace.fs.readDirectory` of the
host editor, returning the name and type of every child of a
directory. -/
def wsReadDirectory (root : FsNode) (p : Path) :
    Except Err (List (String × FileType)) :=
  match root.find p with
  | none => .error Err.FileNotFound
  | some (.dir cs) => .ok (cs.map fun c => (c.1, fileTypeOf c.2))
  | some _ => .error (.raw "FileNotADirectory")

/-- Modelled from the spec: non-recursive `vscode.workspace.fs.delete`
of the host editor, which removes a file or an empty directory and
fails on a directory that still has children. -/
def wsDelete (root : FsNode) (p : Path) : Except Err FsNode :=
  match root.find p with
  | none => .error Err.FileNotFound
  | some (.dir (_ :: _)) => .error (.raw "ENOTEMPTY")
  | some _ => .ok (root.removeAt p)

/-- A fresh chain of empty directories along the given segments. -/
def mkNewDirs : Path → FsNode
  | [] => .dir []
  | s :: rest => .dir [(s, mkNewDirs rest)]

/-- Modelled from the spec: `vscode.workspace.fs.createDirectory` of the
host editor.  Missing intermediate directories are created; a target
that already exists as a directory raises the FileExists kind; a path
segment that exists as a non-directory raises a plain host error. -/
def createDirNode : FsNode → Path → Except Err FsNode
  | .dir _, [] => .error Err.FileExists
  | .dir cs, s :: rest =>
    match lookupChild cs s with
    | some c =>
      match createDirNode c rest with
      | .error e => .error e
      | .ok c2 => .ok (.dir (setAtIn cs s [] c2))
    | none => .ok (.dir (setAtIn cs s [] (mkNewDirs rest)))
  | _, _ => .error (.raw "mkdirExistsError")

mutual
/-- Does every node that the path resolves through exist as a directory
(so that directory creation cannot collide with a non-directory)?  This
is the decidable premise of the directory-creation lemmas. -/
def prefixesDirOk : FsNode → Path → Bool
  | .dir _, [] => true
  | .dir cs, s :: rest => prefixesDirOkIn cs s rest
  | _, _ => false

/-- Child-list worker of `prefixesDirOk`. -/
def prefixesDirOkIn : List (String × FsNode) → String → Path → Bool
  | [], _, _ => true
  | (name, c) :: cs, s, rest =>
    if name = s then prefixesDirOk c rest else prefixesDirOkIn cs s rest
end

mutual
/-- Recursive delete `_.rimraf` (source lines 102-117) with explicit
fuel: stat the path; a plain file is deleted directly; a directory has
each listed child deleted recursively and is then deleted itself; any
other classification falls through with no action. -/
def rimrafF : Nat → FsNode → Path → Except Err FsNode
  | 0, _, _ => .error (.raw "fuel")
  | Nat.succ fuel, root, p =>
    match wsStat root p with
    | .error e => .error e
    | .ok stat =>
      if stat.type = FileType.File then wsDelete root p
      else if stat.type = FileType.Directory then
        match wsReadDirectory root p with
        | .error e => .error e
        | .ok children =>
          match rimrafChildren fuel root p children with
          | .error e => .error e
          | .ok r2 => wsDelete r2 p
      else .ok root

/-- The child loop of `_.rimraf`: delete the listed children in order,
threading the tree state. -/
def rimrafChildren : Nat → FsNode → Path → List (String × FileType) → Except Err FsNode
  | _, root, _, [] => .ok root
  | 0, _, _, _ :: _ => .error (.raw "fuel")
  | Nat.succ fuel, root, p, (name, _) :: rest =>
    match rimrafF fuel root (p ++ [name]) with
    | .error e => .error e
    | .ok r2 => rimrafChildren fuel r2 p rest
end

/-- Recursive delete `_.rimraf`, supplied with sufficient fuel. -/
def rimraf (root : FsNode) (p : Path) : Except Err FsNode :=
  rimrafF root.need root p

/-- Idempotent directory creation `_.mkdirp` (source lines 119-133):
create the directory, swallowing only the FileExists error kind. -/
def mkdirp (root : FsNode) (p : Path) : Except Err FsNode :=
  match createDirNode root p with
  | .error Err.FileExists => .ok root
  | .error e => .error e
  | .ok r => .ok r

/-- Provider method `_stat` (source lines 320-322), wrapping the stats
in the `FileStat` class; the embedding keeps the raw stats and exposes
the type getter separately. -/
def providerStat (root : FsNode) (p : Path) : Except Err Stats :=
  _stat root p

/-- Loop body of `_readDirectory` (source lines 333-338): stat every
child individually and pair it with its type. -/
def statChildren (root : FsNode) (p : Path) : List String → Except Err (List (String × FileType))
  | [] => .ok []
  | child :: rest =>
    match _stat root (p ++ [child]) with
    | .error e => .error e
    | .ok stat =>
      match statChildren root p rest with
      | .error e => .error e
      | .ok tail => .ok ((child, FileStat.type stat) :: tail)

/-- Provider method `_readDirectory` (source lines 330-341): list the
children, then stat each one for its type. -/
def _readDirectory (root : FsNode) (p : Path) : Except Err (List (String × FileType)) :=
  match readdir root p with
  | .error e => .error e
  | .ok children => statChildren root p children

/-- Provider method `_writeFile` (source lines 359-378): a missing path
without the create option fails NotFound; a present path without the
overwrite option fails FileExists; otherwise the parent chain is created
on demand and the content is written. -/
def _writeFile (root : FsNode) (p : Path) (content : List Nat)
    (create overwrite : Bool) : Except Err FsNode :=
  if !(fsExists root p) then
    if !create then .error Err.FileNotFound
    else
      match mkdirp root p.dropLast with
      | .error e => .error e
      | .ok r1 => writefile r1 p content
  else
    if !overwrite then .error Err.FileExists
    else writefile root p content

/-- Provider method `delete` (source lines 380-389): recursive deletes
go through `_.rimraf`, non-recursive ones through `_.unlink`. -/
def deleteOp (root : FsNode) (p : Path) (recursive : Bool) : Except Err FsNode :=
  if recursive then rimraf root p
  else unlink root p

/-- Provider method `_rename` (source lines 399-419): an existing
destination fails FileExists without the overwrite option and is
recursively deleted with it; a missing destination parent is created;
then the low-level rename moves the entry. -/
def _rename (root : FsNode) (oldP newP : Path) (overwrite : Bool) : Except Err FsNode :=
  match
    (if fsExists root newP then
      if !overwrite then .error Err.FileExists
      else rimraf root newP
     else .ok root) with
  | .error e => .error e
  | .ok r1 =>
    match
      (if !(fsExists r1 newP.dropLast) then mkdirp r1 newP.dropLast
       else .ok r1) with
    | .error e => .error e
    | .ok r2 => rename r2 oldP newP

/-- A Change Event: the detected change kind together with the absolute
path it concerns. -/
structure FileChangeEvent where
  type : FileChangeType
  uriPath : Path
deriving DecidableEq, Repr

/-- The body of the native watcher callback (source lines 289-310),
restricted to the events it fires on `_onDidChangeFile`: without a
filename nothing is fired; with one, the absolute path is joined and the
change kind is Changed for the native change tag, otherwise Created or
Deleted according to an existence probe of the path. -/
def watchCallback (root : FsNode) (base : Path) (event : String)
    (filename : Option Path) : List FileChangeEvent :=
  match filename with
  | none => []
  | some fn =>
    let filepath := base ++ fn.map normalizeNFC
    [⟨if event = "change" then .Changed
      else if fsExists root filepath then .Created
      else .Deleted,
      filepath⟩]

/-- Context value constants of the tree entries (ModelType of the
repository constants module, which is outside the shown sources). -/
inductive ModelTypeTag where
  | FOLDER
  | FILE
deriving DecidableEq, Repr

/-- A tree entry (source lines 188-200): the entry path, its type, and
the context value, which is FOLDER only for directories. -/
structure Entry where
  path : Path
  type : FileType
  contextValue : ModelTypeTag
deriving DecidableEq, Repr

/-- The `Entry` constructor logic of the source. -/
def mkEntry (p : Path) (t : FileType) : Entry :=
  ⟨p, t, if t = FileType.Directory then ModelTypeTag.FOLDER else ModelTypeTag.FILE⟩

/-- Strict lexicographic order on character lists (the executable order
underlying the modelled collation). -/
def charListLt : List Char → List Char → Bool
  | _, [] => false
  | [], _ :: _ => true
  | a :: as, b :: bs => a < b || (a = b && charListLt as bs)

/-- The case-folded collation key of a string. -/
def strKey (a : String) : List Char :=
  a.data.map Char.toLower

/-- Modelled from the spec: the comparison underlying the case- and
locale-aware `String.prototype.localeCompare` of the sort, modelled as
a case-insensitive primary comparison with the raw character order as
the tie break. -/
def localeCompare (a b : String) : Int :=
  if charListLt (strKey a) (strKey b) then -1
  else if charListLt (strKey b) (strKey a) then 1
  else if charListLt a.data b.data then -1
  else if charListLt b.data a.data then 1
  else 0

/-- The sort comparator of `getChildren` (source lines 434-439):
entries of equal type compare by name, otherwise directories come
first. -/
def entryCmp (a b : String × FileType) : Int :=
  if a.2 = b.2 then localeCompare a.1 b.1
  else if a.2 = FileType.Directory then -1 else 1

/-- Boolean order induced by the comparator. -/
def entryLe (a b : String × FileType) : Bool :=
  entryCmp a b ≤ 0

/-- Ordered insertion used to model the host sort. -/
def insertLe {α : Type} (le : α → α → Bool) (a : α) : List α → List α
  | [] => [a]
  | b :: bs => if le a b then a :: b :: bs else b :: insertLe le a bs

/-- Modelled from the spec: `Array.prototype.sort` of the host, whose
guarantee with a consistent comparator is a list sorted according to
it; modelled as insertion sort. -/
def jsSort {α : Type} (le : α → α → Bool) : List α → List α
  | [] => []
  | a :: as => insertLe le a (jsSort le as)

/-- Provider method `getChildren` (source lines 423-449): a given
element has its directory listing returned in raw order; with no
element the root listing is read, sorted with the comparator, and
returned; with no root location the result is empty. -/
def getChildren (root : FsNode) (defaultLocation : Option Path)
    (element : Option Entry) : Except Err (List Entry) :=
  match element with
  | some el =>
    match _readDirectory root el.path with
    | .error e => .error e
    | .ok children => .ok (children.map fun nt => mkEntry (el.path ++ [nt.1]) nt.2)
  | none =>
    match defaultLocation with
    | some loc =>
      match _readDirectory root loc with
      | .error e => .error e
      | .ok children =>
        .ok ((jsSort entryLe children).map fun nt => mkEntry (loc ++ [nt.1]) nt.2)
    | none => .ok []

/-- Sort policy stated by the specification for a directory listing:
directories come before files, and entries of equal type are in
ascending name order. -/
def entryOrdered (a b : Entry) : Prop :=
  (a.type = FileType.Directory ∧ b.type = FileType.File) ∨
  (a.type = b.type ∧ localeCompare (a.path.getLastD "") (b.path.getLastD "") ≤ 0)

instance (a b : Entry) : Decidable (entryOrdered a b) := by
  unfold entryOrdered
  infer_instance

/-- A sample scripts tree used to instantiate the theorems: a
subdirectory with unsorted children, a plain file, and a symbolic
link. -/
def sampleRoot : FsNode :=
  .dir [("d", .dir [("b.sql", .file [1]), ("A", .dir []), ("a.sql", .file [2])]),
        ("f.txt", .file [3]),
        ("ln", .symlink)]

/-- A sample scripts tree whose root listing holds only plain files and
one directory, matching the sort example of the specification. -/
def exampleScripts : FsNode :=
  .dir [("b.sql", .file [1]), ("A", .dir []), ("a.sql", .file [2])]

theorem findIn_eq_lookup (cs : List (String × FsNode)) (s : String) (rest : Path) :
    findIn cs s rest = (lookupChild cs s).bind fun c => c.find rest := by
  induction cs with
  | nil => simp [findIn, lookupChild]
  | cons hd tl ih =>
    obtain ⟨name, c⟩ := hd
    by_cases h : name = s
    · subst h; simp [findIn, lookupChild]
    · simp [findIn, lookupChild, h, ih]

theorem find_append (p q : Path) (root : FsNode) :
    root.find (p ++ q) = (root.find p).bind fun n => n.find q := by
  induction p generalizing root with
  | nil => simp [FsNode.find]
  | cons s rest ih =>
    cases root with
    | dir cs =>
      simp only [List.cons_append, FsNode.find]
      induction cs with
      | nil => simp [findIn]
      | cons hd tl ihc =>
        obtain ⟨name, c⟩ := hd
        by_cases h : name = s
        · subst h; simp [findIn, ih]
        · simp [findIn, h, ihc]
    | file content => simp [FsNode.find]
    | symlink => simp [FsNode.find]
    | unknown => simp [FsNode.find]

theorem find_cons_isDir (root : FsNode) (s : String) (rest : Path) (x : FsNode)
    (h : root.find (s :: rest) = some x) : ∃ cs, root = .dir cs := by
  cases root with
  | dir cs => exact ⟨cs, rfl⟩
  | file content => simp [FsNode.find] at h
  | symlink => simp [FsNode.find] at h
  | unknown => simp [FsNode.find] at h

theorem find_parent_isDir (root : FsNode) (pre : Path) (s : String) (x : FsNode)
    (h : root.find (pre ++ [s]) = some x) :
    ∃ cs, root.find pre = some (.dir cs) ∧ lookupChild cs s = some x := by
  rw [find_append] at h
  cases hp : root.find pre with
  | none => rw [hp] at h; simp at h
  | some n =>
    rw [hp] at h
    replace h : n.find [s] = some x := h
    obtain ⟨cs, rfl⟩ := find_cons_isDir n s [] x h
    refine ⟨cs, rfl, ?_⟩
    rw [FsNode.find, findIn_eq_lookup] at h
    cases hl : lookupChild cs s with
    | none => rw [hl] at h; simp at h
    | some c =>
      rw [hl] at h
      simpa [FsNode.find] using h

theorem find_setAt_found (p : Path) (root n m : FsNode)
    (h : root.find p = some n) : (root.setAt p m).find p = some m := by
  induction p generalizing root n with
  | nil => simp [FsNode.find, FsNode.setAt]
  | cons s rest ih =>
    obtain ⟨cs, rfl⟩ := find_cons_isDir root s rest n h
    simp only [FsNode.find, FsNode.setAt] at h ⊢
    induction cs with
    | nil => simp [findIn] at h
    | cons hd tl ihc =>
      obtain ⟨name, c⟩ := hd
      by_cases hn : name = s
      · subst hn
        simp [findIn] at h
        simp [setAtIn, findIn, ih c n h]
      · simp only [findIn, if_neg hn] at h
        simp [setAtIn, findIn, hn, ihc h]

theorem setAt_self (p : Path) (root n : FsNode)
    (h : root.find p = some n) : root.setAt p n = root := by
  induction p generalizing root n with
  | nil => simp [FsNode.find] at h; simp [FsNode.setAt, h]
  | cons s rest ih =>
    obtain ⟨cs, rfl⟩ := find_cons_isDir root s rest n h
    simp only [FsNode.find] at h
    simp only [FsNode.setAt]
    induction cs with
    | nil => simp [findIn] at h
    | cons hd tl ihc =>
      obtain ⟨name, c⟩ := hd
      by_cases hn : name = s
      · subst hn
        simp [findIn] at h
        simp [setAtIn, ih c n h]
      · simp only [findIn, if_neg hn] at h
        have h2 := ihc h
        simp only [FsNode.dir.injEq] at h2
        simp [setAtIn, hn, h2]

theorem setAt_setAt (p : Path) (root n m1 m2 : FsNode)
    (h : root.find p = some n) :
    (root.setAt p m1).setAt p m2 = root.setAt p m2 := by
  induction p generalizing root n with
  | nil => simp [FsNode.setAt]
  | cons s rest ih =>
    obtain ⟨cs, rfl⟩ := find_cons_isDir root s rest n h
    simp only [FsNode.find] at h
    simp only [FsNode.setAt]
    induction cs with
    | nil => simp [findIn] at h
    | cons hd tl ihc =>
      obtain ⟨name, c⟩ := hd
      by_cases hn : name = s
      · subst hn
        simp [findIn] at h
        simp [setAtIn, ih c n h]
      · simp only [findIn, if_neg hn] at h
        have h2 := ihc h
        simp only [FsNode.dir.injEq] at h2
        simp [setAtIn, hn, h2]

theorem removeAt_setAt (p : Path) (root n m : FsNode)
    (h : root.find p = some n) (hne : p ≠ []) :
    (root.setAt p m).removeAt p = root.removeAt p := by
  induction p generalizing root n with
  | nil => exact absurd rfl hne
  | cons s rest ih =>
    obtain ⟨cs, rfl⟩ := find_cons_isDir root s rest n h
    simp only [FsNode.find] at h
    simp only [FsNode.setAt, FsNode.removeAt]
    induction cs with
    | nil => simp [findIn] at h
    | cons hd tl ihc =>
      obtain ⟨name, c⟩ := hd
      by_cases hn : name = s
      · subst hn
        simp [findIn] at h
        cases rest with
        | nil => simp [setAtIn, removeAtIn]
        | cons r rs => simp [setAtIn, removeAtIn, ih c n h (by simp)]
      · simp only [findIn, if_neg hn] at h
        have h2 := ihc h
        simp only [FsNode.dir.injEq] at h2
        simp [setAtIn, removeAtIn, hn, h2]

theorem removeAtIn_cons_of_ne_nil (name : String) (c : FsNode)
    (cs : List (String × FsNode)) (s : String) (rest : Path)
    (hne : rest ≠ []) (hn : name = s) :
    removeAtIn ((name, c) :: cs) s rest = (name, c.removeAt rest) :: cs := by
  cases rest with
  | nil => exact absurd rfl hne
  | cons r rs => simp [removeAtIn, hn]

theorem find_setAt_parent (pre : Path) (s : String) (root m : FsNode)
    (cs : List (String × FsNode)) (h : root.find pre = some (.dir cs)) :
    (root.setAt (pre ++ [s]) m).find (pre ++ [s]) = some m := by
  induction pre generalizing root cs with
  | nil =>
    simp only [FsNode.find] at h
    obtain rfl : root = .dir cs := by simpa using h
    simp only [List.nil_append, FsNode.setAt, FsNode.find]
    induction cs with
    | nil => simp [setAtIn, findIn, FsNode.setAt, FsNode.find]
    | cons hd tl ihc =>
      obtain ⟨name, c⟩ := hd
      by_cases hn : name = s
      · subst hn; simp [setAtIn, findIn, FsNode.setAt, FsNode.find]
      · simp [setAtIn, findIn, hn, ihc]
  | cons a pre2 ih =>
    obtain ⟨cs0, rfl⟩ := find_cons_isDir root a pre2 _ h
    simp only [FsNode.find] at h
    simp only [List.cons_append, FsNode.setAt, FsNode.find]
    induction cs0 with
    | nil => simp [findIn] at h
    | cons hd tl ihc =>
      obtain ⟨name, c⟩ := hd
      by_cases hn : name = a
      · subst hn
        simp [findIn] at h
        simp [setAtIn, findIn, ih c cs h]
      · simp only [findIn, if_neg hn] at h
        simp [setAtIn, findIn, hn, ihc h]

theorem find_setAt_parent_append (pre : Path) (s : String) (q : Path)
    (root m : FsNode) (cs : List (String × FsNode))
    (h : root.find pre = some (.dir cs)) :
    (root.setAt (pre ++ [s]) m).find (pre ++ [s] ++ q) = m.find q := by
  rw [find_append, find_setAt_parent pre s root m cs h]
  rfl

theorem removeAt_child (p : Path) (s : String) (root : FsNode)
    (cs : List (String × FsNode)) (h : root.find p = some (.dir cs)) :
    root.removeAt (p ++ [s]) = root.setAt p (.dir (removeAtIn cs s [])) := by
  induction p generalizing root cs with
  | nil =>
    simp only [FsNode.find] at h
    obtain rfl : root = .dir cs := by simpa using h
    simp [FsNode.removeAt, FsNode.setAt]
  | cons a pre2 ih =>
    obtain ⟨cs0, rfl⟩ := find_cons_isDir root a pre2 _ h
    simp only [FsNode.find] at h
    simp only [List.cons_append, FsNode.removeAt, FsNode.setAt]
    induction cs0 with
    | nil => simp [findIn] at h
    | cons hd tl ihc =>
      obtain ⟨name, c⟩ := hd
      by_cases hn : name = a
      · subst hn
        simp [findIn] at h
        rw [removeAtIn_cons_of_ne_nil name c tl name (pre2 ++ [s]) (by simp) rfl]
        simp [setAtIn, ih c cs h]
      · simp only [findIn, if_neg hn] at h
        have h2 := ihc h
        simp only [FsNode.dir.injEq] at h2
        simp [removeAtIn, setAtIn, hn, h2]

theorem find_setAt_div (p q : Path) (root m : FsNode)
    (h1 : pathLeq p q = false) (h2 : pathLeq q p = false) :
    (root.setAt p m).find q = root.find q := by
  induction p generalizing q root with
  | nil => simp [pathLeq] at h1
  | cons a as ih =>
    cases q with
    | nil => simp [pathLeq] at h2
    | cons b bs =>
      cases root with
      | file content => simp [FsNode.setAt]
      | symlink => simp [FsNode.setAt]
      | unknown => simp [FsNode.setAt]
      | dir cs =>
        simp only [FsNode.setAt, FsNode.find]
        by_cases hab : a = b
        · subst hab
          simp only [pathLeq] at h1 h2
          simp only [decide_eq_true_eq, if_pos rfl, Bool.and_eq_false_iff,
            decide_eq_false_iff_not, not_true, false_or] at h1 h2
          induction cs with
          | nil =>
            cases bs with
            | nil => simp [pathLeq] at h2
            | cons b2 bs2 =>
              simp only [setAtIn, findIn, if_pos rfl]
              rw [ih (b2 :: bs2) (.dir []) h1 h2]
              simp [FsNode.find, findIn]
          | cons hd tl ihc =>
            obtain ⟨name, c⟩ := hd
            by_cases hn : name = a
            · subst hn
              simp [setAtIn, findIn, ih bs c h1 h2]
            · simp [setAtIn, findIn, hn, ihc]
        · induction cs with
          | nil => simp [setAtIn, findIn, hab]
          | cons hd tl ihc =>
            obtain ⟨name, c⟩ := hd
            by_cases hn : name = a
            · subst hn
              simp [setAtIn, findIn, hab]
            · by_cases hnb : name = b
              · subst hnb
                simp [setAtIn, findIn, hn]
              · simp [setAtIn, findIn, hn, hnb, ihc]

theorem find_removeAt_div (p q : Path) (root : FsNode)
    (h1 : pathLeq p q = false) (h2 : pathLeq q p = false) :
    (root.removeAt p).find q = root.find q := by
  induction p generalizing q root with
  | nil => simp [pathLeq] at h1
  | cons a as ih =>
    cases q with
    | nil => simp [pathLeq] at h2
    | cons b bs =>
      cases root with
      | file content => simp [FsNode.removeAt]
      | symlink => simp [FsNode.removeAt]
      | unknown => simp [FsNode.removeAt]
      | dir cs =>
        simp only [FsNode.removeAt, FsNode.find]
        by_cases hab : a = b
        · subst hab
          simp only [pathLeq] at h1 h2
          simp only [decide_eq_true_eq, if_pos rfl, Bool.and_eq_false_iff,
            decide_eq_false_iff_not, not_true, false_or] at h1 h2
          have has : as ≠ [] := by
            intro has; rw [has] at h1; simp [pathLeq] at h1
          induction cs with
          | nil => simp [removeAtIn, findIn]
          | cons hd tl ihc =>
            obtain ⟨name, c⟩ := hd
            by_cases hn : name = a
            · subst hn
              rw [removeAtIn_cons_of_ne_nil name c tl name as has rfl]
              simp [findIn, ih bs c h1 h2]
            · simp [removeAtIn, findIn, hn, ihc]
        · induction cs with
          | nil => simp [removeAtIn, findIn]
          | cons hd tl ihc =>
            obtain ⟨name, c⟩ := hd
            by_cases hn : name = a
            · subst hn
              cases as with
              | nil => simp [removeAtIn, findIn, hab]
              | cons a2 as2 => simp [removeAtIn, findIn, hab]
            · by_cases hnb : name = b
              · subst hnb
                simp [removeAtIn, findIn, hn]
              · simp [removeAtIn, findIn, hn, hnb, ihc]

theorem keyMem_false_lookup (cs : List (String × FsNode)) (s : String)
    (h : keyMem s cs = false) : lookupChild cs s = none := by
  induction cs with
  | nil => rfl
  | cons hd tl ih =>
    obtain ⟨name, c⟩ := hd
    simp only [keyMem, Bool.or_eq_false_iff] at h
    have hn : ¬ name = s := by simpa using h.1
    simp [lookupChild, hn, ih h.2]

theorem lookup_removeAtIn_self (cs : List (String × FsNode)) (s : String)
    (h : wfList cs = true) : lookupChild (removeAtIn cs s []) s = none := by
  induction cs with
  | nil => rfl
  | cons hd tl ih =>
    obtain ⟨name, c⟩ := hd
    simp only [wfList, Bool.and_eq_true] at h
    by_cases hn : name = s
    · subst hn
      simp only [removeAtIn, if_pos rfl]
      exact keyMem_false_lookup tl name (by simpa using h.1.1)
    · simp [removeAtIn, lookupChild, hn, ih h.2]

theorem wfList_lookup (cs : List (String × FsNode)) (s : String) (c : FsNode)
    (hwf : wfList cs = true) (h : lookupChild cs s = some c) :
    FsNode.wf c = true := by
  induction cs with
  | nil => simp [lookupChild] at h
  | cons hd tl ih =>
    obtain ⟨name, c2⟩ := hd
    simp only [wfList, Bool.and_eq_true] at hwf
    by_cases hn : name = s
    · subst hn
      simp only [lookupChild, if_pos rfl] at h
      replace h : c2 = c := by simpa using h
      exact h ▸ hwf.1.2
    · simp only [lookupChild, if_neg hn] at h
      exact ih hwf.2 h

theorem wf_find (p : Path) (root n : FsNode)
    (hwf : FsNode.wf root = true) (h : root.find p = some n) :
    FsNode.wf n = true := by
  induction p generalizing root n with
  | nil =>
    simp only [FsNode.find, Option.some.injEq] at h
    exact h ▸ hwf
  | cons s rest ih =>
    obtain ⟨cs, rfl⟩ := find_cons_isDir root s rest n h
    simp only [FsNode.find, findIn_eq_lookup] at h
    cases hl : lookupChild cs s with
    | none => rw [hl] at h; simp at h
    | some c =>
      rw [hl] at h
      replace h : c.find rest = some n := h
      exact ih c n (wfList_lookup cs s c (by simpa [FsNode.wf] using hwf) hl) h

theorem need_pos (n : FsNode) : 1 ≤ n.need := by
  cases n <;> simp [FsNode.need]

theorem lookup_need_le (cs : List (String × FsNode)) (s : String) (c : FsNode)
    (h : lookupChild cs s = some c) : c.need ≤ needList cs := by
  induction cs with
  | nil => simp [lookupChild] at h
  | cons hd tl ih =>
    obtain ⟨name, c2⟩ := hd
    by_cases hn : name = s
    · subst hn
      simp only [lookupChild, if_pos rfl] at h
      replace h : c2 = c := by simpa using h
      subst h
      simp only [needList]
      omega
    · simp only [lookupChild, if_neg hn] at h
      have := ih h
      simp only [needList]
      omega

theorem find_need_le (p : Path) (root n : FsNode)
    (h : root.find p = some n) : n.need ≤ root.need := by
  induction p generalizing root n with
  | nil =>
    simp only [FsNode.find, Option.some.injEq] at h
    exact h ▸ Nat.le_refl _
  | cons s rest ih =>
    obtain ⟨cs, rfl⟩ := find_cons_isDir root s rest n h
    simp only [FsNode.find, findIn_eq_lookup] at h
    cases hl : lookupChild cs s with
    | none => rw [hl] at h; simp at h
    | some c =>
      rw [hl] at h
      replace h : c.find rest = some n := h
      have h1 := ih c n h
      have h2 := lookup_need_le cs s c hl
      simp only [FsNode.need]
      omega

theorem cleanList_lookup (cs : List (String × FsNode)) (s : String) (c : FsNode)
    (hcl : cleanList cs = true) (h : lookupChild cs s = some c) :
    FsNode.clean c = true := by
  induction cs with
  | nil => simp [lookupChild] at h
  | cons hd tl ih =>
    obtain ⟨name, c2⟩ := hd
    simp only [cleanList, Bool.and_eq_true] at hcl
    by_cases hn : name = s
    · subst hn
      simp only [lookupChild, if_pos rfl] at h
      replace h : c2 = c := by simpa using h
      exact h ▸ hcl.1
    · simp only [lookupChild, if_neg hn] at h
      exact ih hcl.2 h

theorem rimrafF_clean (fuel : Nat) :
    (∀ root p n, root.find p = some n → n.clean = true → n.need ≤ fuel →
      p ≠ [] → rimrafF fuel root p = .ok (root.removeAt p)) ∧
    (∀ root p cs, root.find p = some (.dir cs) → cleanList cs = true →
      needList cs ≤ fuel →
      rimrafChildren fuel root p (cs.map fun c => (c.1, fileTypeOf c.2)) =
        .ok (root.setAt p (.dir []))) := by
  induction fuel using Nat.strong_induction_on with
  | _ fuel ih =>
    constructor
    · intro root p n hfind hclean hneed hne
      obtain ⟨f, rfl⟩ : ∃ f, fuel = f + 1 := by
        cases fuel with
        | zero => have := need_pos n; omega
        | succ f => exact ⟨f, rfl⟩
      cases n with
      | file content =>
        simp [rimrafF, wsStat, hfind, fileTypeOf, wsDelete]
      | symlink => simp [FsNode.clean] at hclean
      | unknown => simp [FsNode.clean] at hclean
      | dir cs =>
        replace hclean : cleanList cs = true := by simpa [FsNode.clean] using hclean
        replace hneed : needList cs ≤ f := by
          simp only [FsNode.need] at hneed; omega
        have hloop := (ih f (by omega)).2 root p cs hfind hclean hneed
        have hfound := find_setAt_found p root (.dir cs) (.dir []) hfind
        have hrm := removeAt_setAt p root (.dir cs) (.dir []) hfind hne
        have hstat : wsStat root p = .ok ⟨FileType.Directory, 0⟩ := by
          simp [wsStat, hfind, fileTypeOf, statsOf]
        simp [rimrafF, hstat, wsReadDirectory, hfind, hloop,
          wsDelete, hfound, hrm]
    · intro root p cs hfind hclean hneed
      cases cs with
      | nil =>
        simp [rimrafChildren, setAt_self p root (.dir []) hfind]
      | cons hd tl =>
        obtain ⟨name, c⟩ := hd
        obtain ⟨f, rfl⟩ : ∃ f, fuel = f + 1 := by
          cases fuel with
          | zero => simp [needList] at hneed
          | succ f => exact ⟨f, rfl⟩
        simp only [cleanList, Bool.and_eq_true] at hclean
        simp only [needList] at hneed
        have hchild : root.find (p ++ [name]) = some c := by
          rw [find_append, hfind]
          simp [FsNode.find, findIn]
        have hstep := (ih f (by omega)).1 root (p ++ [name]) c hchild hclean.1
          (by omega) (by simp)
        have hrw : root.removeAt (p ++ [name]) = root.setAt p (.dir tl) := by
          rw [removeAt_child p name root ((name, c) :: tl) hfind]
          simp [removeAtIn]
        have hfind2 : (root.setAt p (.dir tl)).find p = some (.dir tl) :=
          find_setAt_found p root (.dir ((name, c) :: tl)) (.dir tl) hfind
        have hloop := (ih f (by omega)).2 (root.setAt p (.dir tl)) p tl hfind2
          hclean.2 (by omega)
        have hcollapse := setAt_setAt p root (.dir ((name, c) :: tl))
          (.dir tl) (.dir []) hfind
        simp [rimrafChildren, hstep, hrw, hloop, hcollapse]

theorem rimraf_clean (root : FsNode) (p : Path) (n : FsNode)
    (hfind : root.find p = some n) (hclean : n.clean = true) (hne : p ≠ []) :
    rimraf root p = .ok (root.removeAt p) :=
  (rimrafF_clean root.need).1 root p n hfind hclean (find_need_le p root n hfind) hne

theorem pathLeq_refl (p : Path) : pathLeq p p = true := by
  induction p with
  | nil => rfl
  | cons a as ih => simp [pathLeq, ih]

theorem pathLeq_append (p r : Path) : pathLeq p (p ++ r) = true := by
  induction p with
  | nil => rfl
  | cons a as ih => simp [pathLeq, ih]

theorem pathLeq_trans (p q r : Path) (h1 : pathLeq p q = true)
    (h2 : pathLeq q r = true) : pathLeq p r = true := by
  induction p generalizing q r with
  | nil => rfl
  | cons a as ih =>
    cases q with
    | nil => simp [pathLeq] at h1
    | cons b bs =>
      cases r with
      | nil => simp [pathLeq] at h2
      | cons c cs =>
        simp only [pathLeq, Bool.and_eq_true, decide_eq_true_eq] at h1 h2 ⊢
        exact ⟨h1.1.trans h2.1, ih bs cs h1.2 h2.2⟩

theorem pathLeq_length (p q : Path) (h : pathLeq p q = true) :
    p.length ≤ q.length := by
  induction p generalizing q with
  | nil => simp
  | cons a as ih =>
    cases q with
    | nil => simp [pathLeq] at h
    | cons b bs =>
      simp only [pathLeq, Bool.and_eq_true] at h
      have := ih bs h.2
      simp only [List.length_cons]
      omega

theorem lookup_setAtIn_self (cs : List (String × FsNode)) (s : String) (m : FsNode) :
    lookupChild (setAtIn cs s [] m) s = some m := by
  induction cs with
  | nil => simp [setAtIn, lookupChild, FsNode.setAt]
  | cons hd tl ih =>
    obtain ⟨name, c⟩ := hd
    by_cases hn : name = s
    · subst hn; simp [setAtIn, lookupChild, FsNode.setAt]
    · simp [setAtIn, lookupChild, hn, ih]

theorem find_prefix_dir (q p : Path) (root : FsNode) (cs : List (String × FsNode))
    (h : root.find p = some (.dir cs)) (hq : pathLeq q p = true) :
    ∃ cs2, root.find q = some (.dir cs2) := by
  induction q generalizing p root cs with
  | nil =>
    cases p with
    | nil =>
      refine ⟨cs, ?_⟩
      simpa [FsNode.find] using h
    | cons s rest =>
      obtain ⟨cs0, rfl⟩ := find_cons_isDir root s rest _ h
      exact ⟨cs0, rfl⟩
  | cons a q2 ih =>
    cases p with
    | nil => simp [pathLeq] at hq
    | cons s rest =>
      simp only [pathLeq, Bool.and_eq_true, decide_eq_true_eq] at hq
      obtain ⟨rfl, hq2⟩ := hq
      obtain ⟨cs0, rfl⟩ := find_cons_isDir root a rest _ h
      simp only [FsNode.find, findIn_eq_lookup] at h ⊢
      cases hl : lookupChild cs0 a with
      | none => rw [hl] at h; simp at h
      | some c =>
        rw [hl] at h
        replace h : c.find rest = some (.dir cs) := h
        exact ih rest c cs h hq2

theorem mkNewDirs_find_self (r : Path) : (mkNewDirs r).find r = some (.dir []) := by
  induction r with
  | nil => rfl
  | cons a as ih => simp [mkNewDirs, FsNode.find, findIn, ih]

theorem mkNewDirs_find_prefix (q r : Path) (hq : pathLeq q r = true) :
    ∃ cs, (mkNewDirs r).find q = some (.dir cs) := by
  induction q generalizing r with
  | nil =>
    cases r with
    | nil => exact ⟨[], rfl⟩
    | cons b r2 => exact ⟨[(b, mkNewDirs r2)], rfl⟩
  | cons a q2 ih =>
    cases r with
    | nil => simp [pathLeq] at hq
    | cons b r2 =>
      simp only [pathLeq, Bool.and_eq_true, decide_eq_true_eq] at hq
      obtain ⟨rfl, hq2⟩ := hq
      obtain ⟨cs, hcs⟩ := ih r2 hq2
      exact ⟨cs, by simp [mkNewDirs, FsNode.find, findIn, hcs]⟩

theorem prefixesDirOkIn_eq (cs : List (String × FsNode)) (s : String) (rest : Path) :
    prefixesDirOkIn cs s rest =
      (match lookupChild cs s with
       | some c => prefixesDirOk c rest
       | none => true) := by
  induction cs with
  | nil => rfl
  | cons hd tl ih =>
    obtain ⟨name, c⟩ := hd
    by_cases hn : name = s
    · subst hn; simp [prefixesDirOkIn, lookupChild]
    · simp [prefixesDirOkIn, lookupChild, hn, ih]

theorem createDir_cases (p : Path) (root : FsNode)
    (h : prefixesDirOk root p = true) :
    (createDirNode root p = .error Err.FileExists ∧
      ∃ cs, root.find p = some (.dir cs)) ∨
    (∃ root2, createDirNode root p = .ok root2 ∧
      root2.find p = some (.dir []) ∧
      ∀ q, pathLeq q p = true → ∃ cs, root2.find q = some (.dir cs)) := by
  induction p generalizing root with
  | nil =>
    cases root with
    | dir cs => exact Or.inl ⟨rfl, cs, rfl⟩
    | file content => simp [prefixesDirOk] at h
    | symlink => simp [prefixesDirOk] at h
    | unknown => simp [prefixesDirOk] at h
  | cons s rest ih =>
    cases root with
    | file content => simp [prefixesDirOk] at h
    | symlink => simp [prefixesDirOk] at h
    | unknown => simp [prefixesDirOk] at h
    | dir cs0 =>
      replace h : prefixesDirOkIn cs0 s rest = true := by
        simpa [prefixesDirOk] using h
      rw [prefixesDirOkIn_eq] at h
      cases hl : lookupChild cs0 s with
      | some c =>
        rw [hl] at h
        rcases ih c h with ⟨herr, cs, hfindc⟩ | ⟨c2, hok, hfind2, hpref⟩
        · left
          constructor
          · simp [createDirNode, hl, herr]
          · refine ⟨cs, ?_⟩
            simp [FsNode.find, findIn_eq_lookup, hl, hfindc]
        · right
          refine ⟨.dir (setAtIn cs0 s [] c2), by simp [createDirNode, hl, hok], ?_, ?_⟩
          · simp [FsNode.find, findIn_eq_lookup, lookup_setAtIn_self, hfind2]
          · intro q hq
            cases q with
            | nil => exact ⟨setAtIn cs0 s [] c2, rfl⟩
            | cons a q2 =>
              simp only [pathLeq, Bool.and_eq_true, decide_eq_true_eq] at hq
              obtain ⟨rfl, hq2⟩ := hq
              obtain ⟨cs2, hcs2⟩ := hpref q2 hq2
              exact ⟨cs2, by
                simp [FsNode.find, findIn_eq_lookup, lookup_setAtIn_self, hcs2]⟩
      | none =>
        right
        refine ⟨.dir (setAtIn cs0 s [] (mkNewDirs rest)),
          by simp [createDirNode, hl], ?_, ?_⟩
        · simp [FsNode.find, findIn_eq_lookup, lookup_setAtIn_self, mkNewDirs_find_self]
        · intro q hq
          cases q with
          | nil => exact ⟨setAtIn cs0 s [] (mkNewDirs rest), rfl⟩
          | cons a q2 =>
            simp only [pathLeq, Bool.and_eq_true, decide_eq_true_eq] at hq
            obtain ⟨rfl, hq2⟩ := hq
            obtain ⟨cs2, hcs2⟩ := mkNewDirs_find_prefix q2 rest hq2
            exact ⟨cs2, by
              simp [FsNode.find, findIn_eq_lookup, lookup_setAtIn_self, hcs2]⟩

theorem createDir_target_dir (p : Path) (root : FsNode)
    (cs : List (String × FsNode)) (hfind : root.find p = some (.dir cs)) :
    createDirNode root p = .error Err.FileExists := by
  induction p generalizing root cs with
  | nil =>
    obtain rfl : root = .dir cs := by simpa [FsNode.find] using hfind
    rfl
  | cons s rest ih =>
    obtain ⟨cs0, rfl⟩ := find_cons_isDir root s rest _ hfind
    simp only [FsNode.find, findIn_eq_lookup] at hfind
    cases hl : lookupChild cs0 s with
    | none => rw [hl] at hfind; simp at hfind
    | some c =>
      rw [hl] at hfind
      replace hfind : c.find rest = some (.dir cs) := hfind
      simp [createDirNode, hl, ih c cs hfind]

theorem createDir_exists_nondir (p : Path) (root n : FsNode)
    (hfind : root.find p = some n) (hnd : ∀ cs, n ≠ .dir cs) :
    createDirNode root p = .error (.raw "mkdirExistsError") := by
  induction p generalizing root n with
  | nil =>
    cases n with
    | dir cs => exact absurd rfl (hnd cs)
    | file content =>
      obtain rfl : root = .file content := by simpa [FsNode.find] using hfind
      rfl
    | symlink =>
      obtain rfl : root = .symlink := by simpa [FsNode.find] using hfind
      rfl
    | unknown =>
      obtain rfl : root = .unknown := by simpa [FsNode.find] using hfind
      rfl
  | cons s rest ih =>
    obtain ⟨cs0, rfl⟩ := find_cons_isDir root s rest _ hfind
    simp only [FsNode.find, findIn_eq_lookup] at hfind
    cases hl : lookupChild cs0 s with
    | none => rw [hl] at hfind; simp at hfind
    | some c =>
      rw [hl] at hfind
      replace hfind : c.find rest = some n := hfind
      simp [createDirNode, hl, ih c n hfind hnd]

theorem find_removeAt_dir (p q : Path) (root : FsNode)
    (cs : List (String × FsNode)) (hpq : pathLeq p q = false)
    (h : root.find q = some (.dir cs)) :
    ∃ cs2, (root.removeAt p).find q = some (.dir cs2) := by
  induction q generalizing p root cs with
  | nil =>
    obtain rfl : root = .dir cs := by simpa [FsNode.find] using h
    cases p with
    | nil => simp [pathLeq] at hpq
    | cons a as => exact ⟨removeAtIn cs a as, rfl⟩
  | cons b bs ih =>
    obtain ⟨cs0, rfl⟩ := find_cons_isDir root b bs _ h
    cases p with
    | nil => simp [pathLeq] at hpq
    | cons a as =>
      by_cases hab : a = b
      · subst hab
        simp only [pathLeq] at hpq
        simp only [decide_eq_true_eq, if_pos rfl, Bool.and_eq_false_iff,
          decide_eq_false_iff_not, not_true, false_or] at hpq
        have has : as ≠ [] := by
          intro has; rw [has] at hpq; simp [pathLeq] at hpq
        simp only [FsNode.find] at h
        simp only [FsNode.removeAt, FsNode.find]
        induction cs0 with
        | nil => simp [findIn] at h
        | cons hd tl ihc =>
          obtain ⟨name, c⟩ := hd
          by_cases hn : name = a
          · subst hn
            simp [findIn] at h
            rw [removeAtIn_cons_of_ne_nil name c tl name as has rfl]
            simp only [findIn, if_pos rfl]
            exact ih as c cs hpq h
          · simp only [findIn, if_neg hn] at h
            obtain ⟨cs2, hcs2⟩ := ihc h
            refine ⟨cs2, ?_⟩
            simp only [removeAtIn, if_neg hn, findIn] at hcs2 ⊢
            simpa [hn] using hcs2
      · have h1 : pathLeq (a :: as) (b :: bs) = false := by
          simp [pathLeq, hab]
        have hba : ¬ b = a := fun hh => hab hh.symm
        have h2 : pathLeq (b :: bs) (a :: as) = false := by
          simp [pathLeq, hba]
        rw [find_removeAt_div (a :: as) (b :: bs) _ h1 h2]
        exact ⟨cs, h⟩

theorem find_setAt_dir (p q : Path) (root m : FsNode)
    (cs : List (String × FsNode)) (hpq : pathLeq p q = false)
    (h : root.find q = some (.dir cs)) :
    ∃ cs2, (root.setAt p m).find q = some (.dir cs2) := by
  induction q generalizing p root cs with
  | nil =>
    obtain rfl : root = .dir cs := by simpa [FsNode.find] using h
    cases p with
    | nil => simp [pathLeq] at hpq
    | cons a as => exact ⟨setAtIn cs a as m, by simp [FsNode.setAt, FsNode.find]⟩
  | cons b bs ih =>
    obtain ⟨cs0, rfl⟩ := find_cons_isDir root b bs _ h
    cases p with
    | nil => simp [pathLeq] at hpq
    | cons a as =>
      by_cases hab : a = b
      · subst hab
        simp only [pathLeq] at hpq
        simp only [decide_eq_true_eq, if_pos rfl, Bool.and_eq_false_iff,
          decide_eq_false_iff_not, not_true, false_or] at hpq
        simp only [FsNode.find] at h
        simp only [FsNode.setAt, FsNode.find]
        induction cs0 with
        | nil => simp [findIn] at h
        | cons hd tl ihc =>
          obtain ⟨name, c⟩ := hd
          by_cases hn : name = a
          · subst hn
            simp [findIn] at h
            simp only [setAtIn, if_pos rfl, findIn]
            exact ih as c cs hpq h
          · simp only [findIn, if_neg hn] at h
            obtain ⟨cs2, hcs2⟩ := ihc h
            refine ⟨cs2, ?_⟩
            simp only [setAtIn, if_neg hn, findIn] at hcs2 ⊢
            simpa [hn] using hcs2
      · have h1 : pathLeq (a :: as) (b :: bs) = false := by
          simp [pathLeq, hab]
        have hba : ¬ b = a := fun hh => hab hh.symm
        have h2 : pathLeq (b :: bs) (a :: as) = false := by
          simp [pathLeq, hba]
        rw [find_setAt_div (a :: as) (b :: bs) _ m h1 h2]
        exact ⟨cs, h⟩

theorem mem_insertLe {α : Type} (le : α → α → Bool) (a x : α) (l : List α) :
    x ∈ insertLe le a l ↔ x = a ∨ x ∈ l := by
  induction l with
  | nil => simp [insertLe]
  | cons b bs ih =>
    by_cases h : le a b
    · simp [insertLe, h]
    · simp [insertLe, h, ih]
      tauto

theorem mem_jsSort {α : Type} (le : α → α → Bool) (x : α) (l : List α) :
    x ∈ jsSort le l ↔ x ∈ l := by
  induction l with
  | nil => simp [jsSort]
  | cons a as ih => simp [jsSort, mem_insertLe, ih]

theorem pairwise_insertLe {α : Type} (le : α → α → Bool)
    (htrans : ∀ x y z, le x y = true → le y z = true → le x z = true)
    (a : α) (l : List α)
    (htot : ∀ x ∈ l, le a x = true ∨ le x a = true)
    (hl : l.Pairwise (fun x y => le x y = true)) :
    (insertLe le a l).Pairwise (fun x y => le x y = true) := by
  induction l with
  | nil => simp [insertLe]
  | cons b bs ih =>
    rw [List.pairwise_cons] at hl
    obtain ⟨hb, hbs⟩ := hl
    by_cases h : le a b = true
    · simp only [insertLe, if_pos h]
      rw [List.pairwise_cons]
      refine ⟨?_, List.pairwise_cons.mpr ⟨hb, hbs⟩⟩
      intro x hx
      rcases List.mem_cons.mp hx with rfl | hx
      · exact h
      · exact htrans a b x h (hb x hx)
    · simp only [insertLe, if_neg h]
      rw [List.pairwise_cons]
      constructor
      · intro y hy
        rcases (mem_insertLe le a y bs).mp hy with rfl | hy
        · rcases htot b (by simp) with h2 | h2
          · exact absurd h2 h
          · exact h2
        · exact hb y hy
      · exact ih (fun x hx => htot x (List.mem_cons_of_mem b hx)) hbs

theorem pairwise_jsSort {α : Type} (le : α → α → Bool)
    (htrans : ∀ x y z, le x y = true → le y z = true → le x z = true)
    (l : List α)
    (htot : ∀ x ∈ l, ∀ y ∈ l, le x y = true ∨ le y x = true) :
    (jsSort le l).Pairwise (fun x y => le x y = true) := by
  induction l with
  | nil => simp [jsSort]
  | cons a as ih =>
    simp only [jsSort]
    apply pairwise_insertLe le htrans
    · intro x hx
      exact htot a (by simp) x (by simp [(mem_jsSort le x as).mp hx])
    · exact ih fun x hx y hy => htot x (by simp [hx]) y (by simp [hy])

theorem charListLt_irrefl (l : List Char) : charListLt l l = false := by
  induction l with
  | nil => rfl
  | cons a as ih => simp [charListLt, ih, lt_irrefl]

theorem charListLt_asymm (l1 l2 : List Char) (h : charListLt l1 l2 = true) :
    charListLt l2 l1 = false := by
  induction l1 generalizing l2 with
  | nil =>
    cases l2 with
    | nil => simp [charListLt] at h
    | cons b bs => simp [charListLt]
  | cons a as ih =>
    cases l2 with
    | nil => simp [charListLt] at h
    | cons b bs =>
      simp only [charListLt, Bool.or_eq_true, Bool.and_eq_true,
        decide_eq_true_eq] at h ⊢
      simp only [Bool.or_eq_false_iff, Bool.and_eq_false_iff,
        decide_eq_false_iff_not]
      rcases h with h | ⟨rfl, h⟩
      · exact ⟨lt_asymm h, Or.inl (ne_of_gt h)⟩
      · exact ⟨lt_irrefl a, Or.inr (by simp [ih bs h])⟩

theorem charListLt_trans (l1 l2 l3 : List Char)
    (h1 : charListLt l1 l2 = true) (h2 : charListLt l2 l3 = true) :
    charListLt l1 l3 = true := by
  induction l1 generalizing l2 l3 with
  | nil =>
    cases l3 with
    | nil =>
      cases l2 with
      | nil => simp [charListLt] at h1
      | cons b bs => simp [charListLt] at h2
    | cons c cs => simp [charListLt]
  | cons a as ih =>
    cases l2 with
    | nil => simp [charListLt] at h1
    | cons b bs =>
      cases l3 with
      | nil => simp [charListLt] at h2
      | cons c cs =>
        simp only [charListLt, Bool.or_eq_true, Bool.and_eq_true,
          decide_eq_true_eq] at h1 h2 ⊢
        rcases h1 with h1 | ⟨rfl, h1⟩
        · rcases h2 with h2 | ⟨rfl, h2⟩
          · exact Or.inl (lt_trans h1 h2)
          · exact Or.inl h1
        · rcases h2 with h2 | ⟨rfl, h2⟩
          · exact Or.inl h2
          · exact Or.inr ⟨rfl, ih bs cs h1 h2⟩

theorem charListLt_total_eq (l1 l2 : List Char)
    (h1 : charListLt l1 l2 = false) (h2 : charListLt l2 l1 = false) :
    l1 = l2 := by
  induction l1 generalizing l2 with
  | nil =>
    cases l2 with
    | nil => rfl
    | cons b bs => simp [charListLt] at h1
  | cons a as ih =>
    cases l2 with
    | nil => simp [charListLt] at h2
    | cons b bs =>
      simp only [charListLt, Bool.or_eq_false_iff, Bool.and_eq_false_iff,
        decide_eq_false_iff_not] at h1 h2
      obtain ⟨hab, h1r⟩ := h1
      obtain ⟨hba, h2r⟩ := h2
      have heq : a = b := by
        rcases lt_trichotomy a b with hh | hh | hh
        · exact absurd hh hab
        · exact hh
        · exact absurd hh hba
      subst heq
      rcases h1r with h1r | h1r
      · exact absurd rfl h1r
      · rcases h2r with h2r | h2r
        · exact absurd rfl h2r
        · rw [ih bs (by simpa using h1r) (by simpa using h2r)]

theorem localeCompare_le_iff (a b : String) :
    localeCompare a b ≤ 0 ↔
      (charListLt (strKey a) (strKey b) = true ∨
        (strKey a = strKey b ∧
          (charListLt a.data b.data = true ∨ a.data = b.data))) := by
  by_cases k1 : charListLt (strKey a) (strKey b) = true
  · exact iff_of_true (by simp [localeCompare, k1]) (Or.inl k1)
  · replace k1 : charListLt (strKey a) (strKey b) = false := by
      cases hb : charListLt (strKey a) (strKey b)
      · rfl
      · exact absurd hb k1
    by_cases k2 : charListLt (strKey b) (strKey a) = true
    · refine iff_of_false (by simp [localeCompare, k1, k2]) ?_
      rintro (hl | ⟨he, _⟩)
      · rw [hl] at k1; exact Bool.true_eq_false ▸ k1.symm ▸ rfl
      · rw [he] at k1 k2
        rw [charListLt_irrefl] at k2
        exact Bool.noConfusion k2
    · replace k2 : charListLt (strKey b) (strKey a) = false := by
        cases hb : charListLt (strKey b) (strKey a)
        · rfl
        · exact absurd hb k2
      have keq : strKey a = strKey b := charListLt_total_eq _ _ k1 k2
      by_cases r1 : charListLt a.data b.data = true
      · exact iff_of_true (by simp [localeCompare, k1, k2, r1])
          (Or.inr ⟨keq, Or.inl r1⟩)
      · replace r1 : charListLt a.data b.data = false := by
          cases hb : charListLt a.data b.data
          · rfl
          · exact absurd hb r1
        by_cases r2 : charListLt b.data a.data = true
        · refine iff_of_false (by simp [localeCompare, k1, k2, r1, r2]) ?_
          rintro (hl | ⟨_, hr | hr⟩)
          · rw [hl] at k1; exact Bool.noConfusion k1
          · rw [hr] at r1; exact Bool.noConfusion r1
          · rw [hr] at r2
            rw [charListLt_irrefl] at r2
            exact Bool.noConfusion r2
        · replace r2 : charListLt b.data a.data = false := by
            cases hb : charListLt b.data a.data
            · rfl
            · exact absurd hb r2
          have req : a.data = b.data := charListLt_total_eq _ _ r1 r2
          exact iff_of_true (by simp [localeCompare, k1, k2, r1, r2])
            (Or.inr ⟨keq, Or.inr req⟩)

theorem localeCompare_trans (a b c : String)
    (h1 : localeCompare a b ≤ 0) (h2 : localeCompare b c ≤ 0) :
    localeCompare a c ≤ 0 := by
  rw [localeCompare_le_iff] at h1 h2 ⊢
  rcases h1 with h1 | ⟨h1e, h1r⟩
  · rcases h2 with h2 | ⟨h2e, h2r⟩
    · exact Or.inl (charListLt_trans _ _ _ h1 h2)
    · exact Or.inl (h2e ▸ h1)
  · rcases h2 with h2 | ⟨h2e, h2r⟩
    · exact Or.inl (h1e ▸ h2)
    · refine Or.inr ⟨h1e.trans h2e, ?_⟩
      rcases h1r with h1r | h1r
      · rcases h2r with h2r | h2r
        · exact Or.inl (charListLt_trans _ _ _ h1r h2r)
        · exact Or.inl (h2r ▸ h1r)
      · rcases h2r with h2r | h2r
        · exact Or.inl (h1r ▸ h2r)
        · exact Or.inr (h1r.trans h2r)

theorem localeCompare_total (a b : String) :
    localeCompare a b ≤ 0 ∨ localeCompare b a ≤ 0 := by
  rw [localeCompare_le_iff, localeCompare_le_iff]
  by_cases k1 : charListLt (strKey a) (strKey b) = true
  · exact Or.inl (Or.inl k1)
  · replace k1 : charListLt (strKey a) (strKey b) = false := by
      cases hb : charListLt (strKey a) (strKey b)
      · rfl
      · exact absurd hb k1
    by_cases k2 : charListLt (strKey b) (strKey a) = true
    · exact Or.inr (Or.inl k2)
    · replace k2 : charListLt (strKey b) (strKey a) = false := by
        cases hb : charListLt (strKey b) (strKey a)
        · rfl
        · exact absurd hb k2
      have keq : strKey a = strKey b := charListLt_total_eq _ _ k1 k2
      by_cases r1 : charListLt a.data b.data = true
      · exact Or.inl (Or.inr ⟨keq, Or.inl r1⟩)
      · replace r1 : charListLt a.data b.data = false := by
          cases hb : charListLt a.data b.data
          · rfl
          · exact absurd hb r1
        by_cases r2 : charListLt b.data a.data = true
        · exact Or.inr (Or.inr ⟨keq.symm, Or.inl r2⟩)
        · replace r2 : charListLt b.data a.data = false := by
            cases hb : charListLt b.data a.data
            · rfl
            · exact absurd hb r2
          exact Or.inl (Or.inr ⟨keq, Or.inr (charListLt_total_eq _ _ r1 r2)⟩)

theorem entryCmp_le_iff (x y : String × FileType) :
    entryCmp x y ≤ 0 ↔
      ((x.2 = y.2 ∧ localeCompare x.1 y.1 ≤ 0) ∨
       (x.2 ≠ y.2 ∧ x.2 = FileType.Directory)) := by
  by_cases h : x.2 = y.2
  · simp [entryCmp, h]
  · simp only [entryCmp, if_neg h]
    by_cases hd : x.2 = FileType.Directory
    · rw [if_pos hd]
      exact iff_of_true (by norm_num) (Or.inr ⟨h, hd⟩)
    · rw [if_neg hd]
      refine iff_of_false (by norm_num) ?_
      rintro (⟨he, _⟩ | ⟨_, hdd⟩)
      · exact h he
      · exact hd hdd

theorem entryLe_eq_true_iff (x y : String × FileType) :
    entryLe x y = true ↔ entryCmp x y ≤ 0 := by
  simp [entryLe]

theorem entryLe_trans (x y z : String × FileType)
    (h1 : entryLe x y = true) (h2 : entryLe y z = true) :
    entryLe x z = true := by
  rw [entryLe_eq_true_iff, entryCmp_le_iff] at h1 h2 ⊢
  rcases h1 with ⟨he1, hl1⟩ | ⟨hne1, hd1⟩
  · rcases h2 with ⟨he2, hl2⟩ | ⟨hne2, hd2⟩
    · exact Or.inl ⟨he1.trans he2, localeCompare_trans _ _ _ hl1 hl2⟩
    · exact Or.inr ⟨he1 ▸ hne2, he1 ▸ hd2⟩
  · rcases h2 with ⟨he2, hl2⟩ | ⟨hne2, hd2⟩
    · exact Or.inr ⟨fun hh => hne1 (hh.trans he2.symm), hd1⟩
    · exact absurd (hd1.trans hd2.symm) hne1

theorem entryLe_total_fd (x y : String × FileType)
    (hx : x.2 = FileType.File ∨ x.2 = FileType.Directory)
    (hy : y.2 = FileType.File ∨ y.2 = FileType.Directory) :
    entryLe x y = true ∨ entryLe y x = true := by
  rw [entryLe_eq_true_iff, entryLe_eq_true_iff, entryCmp_le_iff, entryCmp_le_iff]
  by_cases h : x.2 = y.2
  · rcases localeCompare_total x.1 y.1 with h2 | h2
    · exact Or.inl (Or.inl ⟨h, h2⟩)
    · exact Or.inr (Or.inl ⟨h.symm, h2⟩)
  · rcases hx with hx | hx
    · rcases hy with hy | hy
      · exact absurd (hx.trans hy.symm) h
      · exact Or.inr (Or.inr ⟨fun hh => h hh.symm, hy⟩)
    · exact Or.inl (Or.inr ⟨h, hx⟩)

theorem map_normalizeNFC (l : List String) : l.map normalizeNFC = l := by
  induction l with
  | nil => rfl
  | cons a as ih => simp [normalizeNFC, ih]

/-- C2: for every native watcher notification carrying a filename, the
emitted Change Event is Changed exactly when the native tag is the
change tag; otherwise it is Created exactly when the existence probe of
the computed absolute path succeeds, and Deleted exactly when it
fails. -/
theorem watch_event_classification (root : FsNode) (base : Path)
    (event : String) (fn : Path) :
    (watchCallback root base event (some fn) =
        [⟨FileChangeType.Changed, base ++ fn⟩] ↔ event = "change") ∧
    (watchCallback root base event (some fn) =
        [⟨FileChangeType.Created, base ++ fn⟩] ↔
      event ≠ "change" ∧ fsExists root (base ++ fn) = true) ∧
    (watchCallback root base event (some fn) =
        [⟨FileChangeType.Deleted, base ++ fn⟩] ↔
      event ≠ "change" ∧ fsExists root (base ++ fn) = false) := by
  by_cases he : event = "change"
  · subst he
    simp [watchCallback, map_normalizeNFC]
  · by_cases hex : fsExists root (base ++ fn) = true
    · simp [watchCallback, map_normalizeNFC, he, hex]
    · have hex2 : fsExists root (base ++ fn) = false := by
        cases hb : fsExists root (base ++ fn)
        · rfl
        · exact absurd hb hex
      simp [watchCallback, map_normalizeNFC, he, hex2]

/-- C3: rename without the overwrite option onto an existing destination
fails with the FileExists kind; the check precedes every mutation, so
the tree passed on unchanged is the original one. -/
theorem rename_no_overwrite_fails (root : FsNode) (oldP newP : Path)
    (n : FsNode) (h : root.find newP = some n) :
    _rename root oldP newP false = .error Err.FileExists := by
  simp [_rename, fsExists, h]

/-- Witness for C3 at a concrete tree: the destination directory d
exists, so the rename fails with FileExists. -/
theorem rename_no_overwrite_fails_witness :
    _rename sampleRoot ["f.txt"] ["d"] false = .error Err.FileExists :=
  rename_no_overwrite_fails sampleRoot ["f.txt"] ["d"]
    (.dir [("b.sql", .file [1]), ("A", .dir []), ("a.sql", .file [2])]) rfl

/-- C9: the error classification maps ENOENT, EISDIR, EEXIST and
EPERM or EACCES to the four editor error kinds, passes unrecognized
codes through unchanged, and stat of a missing path fails with the
NotFound kind. -/
theorem error_classification :
    massageError ⟨"ENOENT"⟩ = Err.FileNotFound ∧
    massageError ⟨"EISDIR"⟩ = Err.FileIsADirectory ∧
    massageError ⟨"EEXIST"⟩ = Err.FileExists ∧
    massageError ⟨"EPERM"⟩ = Err.NoPermissions ∧
    massageError ⟨"EACCES"⟩ = Err.NoPermissions ∧
    (∀ c : String, c ≠ "ENOENT" → c ≠ "EISDIR" → c ≠ "EEXIST" →
      c ≠ "EPERM" → c ≠ "EACCES" → massageError ⟨c⟩ = Err.os ⟨c⟩) ∧
    (∀ (root : FsNode) (p : Path), root.find p = none →
      _stat root p = .error Err.FileNotFound) := by
  refine ⟨by decide, by decide, by decide, by decide, by decide, ?_, ?_⟩
  · intro c h1 h2 h3 h4 h5
    simp [massageError, h1, h2, h3, h4, h5]
  · intro root p h
    simp [_stat, handleResult, fsStatOs, h, massageError]

/-- Witness for C9: an unrecognized code passes through, and stat of a
missing path fails NotFound on the sample tree. -/
theorem error_classification_witness :
    massageError ⟨"EBUSY"⟩ = Err.os ⟨"EBUSY"⟩ ∧
    _stat sampleRoot ["nope"] = .error Err.FileNotFound :=
  ⟨error_classification.2.2.2.2.2.1 "EBUSY" (by decide) (by decide)
      (by decide) (by decide) (by decide),
    error_classification.2.2.2.2.2.2 sampleRoot ["nope"] rfl⟩

/-- C10: recursive delete of a path whose stat classification is neither
a plain file nor a directory (a symbolic link or an unknown object)
succeeds while deleting nothing: the tree is returned unchanged and the
path still resolves. -/
theorem rimraf_special_noop (root : FsNode) (p : Path) (n : FsNode)
    (hfind : root.find p = some n)
    (hn : n = FsNode.symlink ∨ n = FsNode.unknown) :
    deleteOp root p true = .ok root ∧ root.find p = some n := by
  refine ⟨?_, hfind⟩
  obtain ⟨f, hf⟩ : ∃ f, root.need = f + 1 :=
    ⟨root.need - 1, by have := need_pos root; omega⟩
  rcases hn with rfl | rfl
  · simp [deleteOp, rimraf, hf, rimrafF, wsStat, hfind, fileTypeOf, statsOf]
  · simp [deleteOp, rimraf, hf, rimrafF, wsStat, hfind, fileTypeOf, statsOf]

/-- Witness for C10: the symbolic link of the sample tree survives a
recursive delete unchanged. -/
theorem rimraf_special_noop_witness :
    deleteOp sampleRoot ["ln"] true = .ok sampleRoot ∧
    sampleRoot.find ["ln"] = some FsNode.symlink :=
  rimraf_special_noop sampleRoot ["ln"] FsNode.symlink rfl (Or.inl rfl)

/-- C7: recursive delete removes the path entirely: the operation
succeeds and equals removal of the whole subtree, the deleted path and
all of its descendants no longer resolve, and a subsequent listing of
the deleted path fails with the NotFound kind. -/
theorem delete_recursive_removes (root : FsNode) (p : Path) (n : FsNode)
    (hwf : root.wf = true) (hfind : root.find p = some n)
    (hclean : n.clean = true) (hne : p ≠ []) :
    deleteOp root p true = .ok (root.removeAt p) ∧
    (root.removeAt p).find p = none ∧
    (∀ q, (root.removeAt p).find (p ++ q) = none) ∧
    _readDirectory (root.removeAt p) p = .error Err.FileNotFound := by
  have hdel : deleteOp root p true = .ok (root.removeAt p) := by
    simp [deleteOp, rimraf_clean root p n hfind hclean hne]
  have hnone : (root.removeAt p).find p = none := by
    obtain ⟨pre, last, rfl⟩ : ∃ pre last, p = pre ++ [last] := by
      rcases List.eq_nil_or_concat p with h | ⟨pre, last, h⟩
      · exact absurd h hne
      · exact ⟨pre, last, by simpa using h⟩
    obtain ⟨cs, hpre, hlook⟩ := find_parent_isDir root pre last n hfind
    rw [removeAt_child pre last root cs hpre]
    rw [find_append]
    rw [find_setAt_found pre root (.dir cs) (.dir (removeAtIn cs last [])) hpre]
    have hwfl : wfList cs = true := by
      have := wf_find pre root (.dir cs) hwf hpre
      simpa [FsNode.wf] using this
    simp [FsNode.find, findIn_eq_lookup, lookup_removeAtIn_self cs last hwfl]
  refine ⟨hdel, hnone, ?_, ?_⟩
  · intro q
    rw [find_append, hnone]
    rfl
  · simp [_readDirectory, readdir, fsReaddirOs, hnone, handleResult,
      Except.map, massageError]

/-- Witness for C7: deleting the subdirectory d of the sample tree
removes its whole subtree. -/
theorem delete_recursive_removes_witness :
    deleteOp sampleRoot ["d"] true = .ok (sampleRoot.removeAt ["d"]) ∧
    (sampleRoot.removeAt ["d"]).find ["d"] = none ∧
    (sampleRoot.removeAt ["d"]).find (["d"] ++ ["A"]) = none ∧
    _readDirectory (sampleRoot.removeAt ["d"]) ["d"] =
      .error Err.FileNotFound := by
  have t := delete_recursive_removes sampleRoot ["d"]
    (.dir [("b.sql", .file [1]), ("A", .dir []), ("a.sql", .file [2])])
    rfl rfl rfl (by simp)
  exact ⟨t.1, t.2.1, t.2.2.1 ["A"], t.2.2.2⟩

/-- C6: directory creation creates missing intermediate directories and
is idempotent and type-checked: with no non-directory collision along
the path it succeeds and every prefix of the path is then a directory;
a target that already exists as a directory succeeds silently with no
change; a target that exists as a non-directory fails; and repeating a
successful creation returns the tree unchanged. -/
theorem mkdirp_spec (root : FsNode) (p : Path) :
    (prefixesDirOk root p = true →
      ∃ root2, mkdirp root p = .ok root2 ∧
        (∀ q, pathLeq q p = true → ∃ cs, root2.find q = some (.dir cs))) ∧
    (∀ cs, root.find p = some (.dir cs) → mkdirp root p = .ok root) ∧
    (∀ n, root.find p = some n → (∀ cs, n ≠ .dir cs) →
      mkdirp root p = .error (.raw "mkdirExistsError")) ∧
    (prefixesDirOk root p = true →
      ∀ root2, mkdirp root p = .ok root2 → mkdirp root2 p = .ok root2) := by
  refine ⟨?_, ?_, ?_, ?_⟩
  · intro h
    rcases createDir_cases p root h with ⟨herr, cs, hfind⟩ | ⟨root2, hok, hfind2, hpref⟩
    · refine ⟨root, by simp [mkdirp, herr], ?_⟩
      intro q hq
      exact find_prefix_dir q p root cs hfind hq
    · exact ⟨root2, by simp [mkdirp, hok], hpref⟩
  · intro cs hfind
    simp [mkdirp, createDir_target_dir p root cs hfind]
  · intro n hfind hnd
    simp [mkdirp, createDir_exists_nondir p root n hfind hnd]
  · intro h root2 hmk
    rcases createDir_cases p root h with ⟨herr, cs, hfind⟩ | ⟨r2, hok, hfind2, _⟩
    · have heq : mkdirp root p = .ok root := by simp [mkdirp, herr]
      rw [heq] at hmk
      obtain rfl : root = root2 := by simpa using hmk
      simp [mkdirp, createDir_target_dir p root cs hfind]
    · have heq : mkdirp root p = .ok r2 := by simp [mkdirp, hok]
      rw [heq] at hmk
      obtain rfl : r2 = root2 := by simpa using hmk
      simp [mkdirp, createDir_target_dir p r2 [] hfind2]

/-- Witness for C6: creating the existing directory d changes nothing,
and creating over the plain file f.txt fails. -/
theorem mkdirp_spec_witness :
    mkdirp sampleRoot ["d"] = .ok sampleRoot ∧
    mkdirp sampleRoot ["f.txt"] = .error (.raw "mkdirExistsError") :=
  ⟨(mkdirp_spec sampleRoot ["d"]).2.1
      [("b.sql", .file [1]), ("A", .dir []), ("a.sql", .file [2])] rfl,
    (mkdirp_spec sampleRoot ["f.txt"]).2.2.1 (.file [3]) rfl
      (fun _ h => FsNode.noConfusion h)⟩

/-- C5: writeFile fails NotFound on a missing path without the create
option, fails FileExists on an existing path without the overwrite
option, and otherwise creates the missing parent chain on demand before
writing: on a missing path with create the write succeeds, the path then
holds the file content, and every prefix of the parent is a directory;
on an existing plain file with overwrite the content is replaced. -/
theorem writeFile_spec (root : FsNode) (p : Path) (content : List Nat) :
    (∀ overwrite, root.find p = none →
      _writeFile root p content false overwrite = .error Err.FileNotFound) ∧
    (∀ create n, root.find p = some n →
      _writeFile root p content create false = .error Err.FileExists) ∧
    (∀ overwrite, root.find p = none → p ≠ [] →
      prefixesDirOk root p.dropLast = true →
      ∃ root2, _writeFile root p content true overwrite = .ok root2 ∧
        root2.find p = some (.file content) ∧
        (∀ q, pathLeq q p.dropLast = true →
          ∃ cs, root2.find q = some (.dir cs))) ∧
    (∀ create contentOld, root.find p = some (.file contentOld) → p ≠ [] →
      _writeFile root p content create true =
        .ok (root.setAt p (.file content))) := by
  refine ⟨?_, ?_, ?_, ?_⟩
  · intro overwrite h
    simp [_writeFile, fsExists, h]
  · intro create n h
    simp [_writeFile, fsExists, h]
  · intro overwrite h hne hpre
    obtain ⟨pre, last, rfl⟩ : ∃ pre last, p = pre ++ [last] := by
      rcases List.eq_nil_or_concat p with h2 | ⟨pre, last, h2⟩
      · exact absurd h2 hne
      · exact ⟨pre, last, by simpa using h2⟩
    have hd : (pre ++ [last]).dropLast = pre := by simp
    rw [hd] at hpre
    have hcons : pre ++ [last] ≠ [] := by simp
    have hlen : ∀ q, pathLeq q pre = true →
        pathLeq (pre ++ [last]) q = false := by
      intro q hq
      cases hc : pathLeq (pre ++ [last]) q
      · rfl
      · exfalso
        have l1 := pathLeq_length _ _ hc
        have l2 := pathLeq_length q pre hq
        simp at l1
        omega
    rcases createDir_cases pre root hpre with
      ⟨herr, cs, hfindd⟩ | ⟨r1, hok, hfind1, hpref1⟩
    · have hmk : mkdirp root pre = .ok root := by simp [mkdirp, herr]
      have hw : fsWritefileOs root (pre ++ [last]) content =
          .ok (root.setAt (pre ++ [last]) (.file content)) := by
        simp [fsWritefileOs, hcons, hd, hfindd, h]
      refine ⟨root.setAt (pre ++ [last]) (.file content), ?_, ?_, ?_⟩
      · simp [_writeFile, fsExists, h, hd, hmk, writefile, handleResult, hw]
      · exact find_setAt_parent pre last root (.file content) cs hfindd
      · intro q hq
        rw [hd] at hq
        obtain ⟨csq, hcsq⟩ := find_prefix_dir q pre root cs hfindd hq
        exact find_setAt_dir (pre ++ [last]) q root (.file content) csq
          (hlen q hq) hcsq
    · have hmk : mkdirp root pre = .ok r1 := by simp [mkdirp, hok]
      have hfp : r1.find (pre ++ [last]) = none := by
        rw [find_append, hfind1]
        simp [FsNode.find, findIn]
      have hw : fsWritefileOs r1 (pre ++ [last]) content =
          .ok (r1.setAt (pre ++ [last]) (.file content)) := by
        simp [fsWritefileOs, hcons, hd, hfind1, hfp]
      refine ⟨r1.setAt (pre ++ [last]) (.file content), ?_, ?_, ?_⟩
      · simp [_writeFile, fsExists, h, hd, hmk, writefile, handleResult, hw]
      · exact find_setAt_parent pre last r1 (.file content) [] hfind1
      · intro q hq
        rw [hd] at hq
        obtain ⟨csq, hcsq⟩ := hpref1 q hq
        exact find_setAt_dir (pre ++ [last]) q r1 (.file content) csq
          (hlen q hq) hcsq
  · intro create contentOld h hne
    obtain ⟨pre, last, rfl⟩ : ∃ pre last, p = pre ++ [last] := by
      rcases List.eq_nil_or_concat p with h2 | ⟨pre, last, h2⟩
      · exact absurd h2 hne
      · exact ⟨pre, last, by simpa using h2⟩
    obtain ⟨cs, hpre2, hlook⟩ := find_parent_isDir root pre last _ h
    have hd : (pre ++ [last]).dropLast = pre := by simp
    have hcons : pre ++ [last] ≠ [] := by simp
    have hw : fsWritefileOs root (pre ++ [last]) content =
        .ok (root.setAt (pre ++ [last]) (.file content)) := by
      simp [fsWritefileOs, hcons, hd, hpre2, h]
    simp [_writeFile, fsExists, h, writefile, handleResult, hw]

/-- Witness for C5 on the sample tree: missing path without create
fails NotFound; existing file without overwrite fails FileExists;
missing path with create succeeds, writes the content and creates the
parent chain; existing file with overwrite is replaced. -/
theorem writeFile_spec_witness :
    _writeFile sampleRoot ["gone"] [9] false true = .error Err.FileNotFound ∧
    _writeFile sampleRoot ["f.txt"] [9] true false = .error Err.FileExists ∧
    (∃ root2, _writeFile sampleRoot ["x", "y", "new.sql"] [9] true true =
        .ok root2 ∧
      root2.find ["x", "y", "new.sql"] = some (.file [9]) ∧
      (∀ q, pathLeq q ["x", "y", "new.sql"].dropLast = true →
        ∃ cs, root2.find q = some (.dir cs))) ∧
    _writeFile sampleRoot ["f.txt"] [9] false true =
      .ok (sampleRoot.setAt ["f.txt"] (.file [9])) :=
  ⟨(writeFile_spec sampleRoot ["gone"] [9]).1 true rfl,
    (writeFile_spec sampleRoot ["f.txt"] [9]).2.1 true (.file [3]) rfl,
    (writeFile_spec sampleRoot ["x", "y", "new.sql"] [9]).2.2.1 true rfl
      (by simp) rfl,
    (writeFile_spec sampleRoot ["f.txt"] [9]).2.2.2 false [3] rfl (by simp)⟩

theorem mkEntry_type (p : Path) (t : FileType) : (mkEntry p t).type = t := rfl

theorem mkEntry_path (p : Path) (t : FileType) : (mkEntry p t).path = p := rfl

/-- Counterexample for C1: the listing of subdirectory d is returned in
raw readdir order (a file before a directory and names unsorted), so the
sort policy does not hold for subdirectory listings. -/
theorem getChildren_subdir_unsorted :
    getChildren sampleRoot (some []) (some (mkEntry ["d"] FileType.Directory)) =
      .ok [mkEntry ["d", "b.sql"] FileType.File,
           mkEntry ["d", "A"] FileType.Directory,
           mkEntry ["d", "a.sql"] FileType.File] ∧
    ¬ List.Pairwise entryOrdered
        [mkEntry ["d", "b.sql"] FileType.File,
         mkEntry ["d", "A"] FileType.Directory,
         mkEntry ["d", "a.sql"] FileType.File] := by
  constructor
  · rfl
  · intro hp
    rw [List.pairwise_cons] at hp
    have h1 := hp.1 (mkEntry ["d", "A"] FileType.Directory) (by simp)
    rcases h1 with ⟨h1, _⟩ | ⟨h1, _⟩ <;> simp [mkEntry_type] at h1

/-- C1 (amended): the listing of the root location is sorted by the
comparator: directories come before files, and entries of equal type are
in ascending name order; subdirectory listings are returned in raw
readdir order (see the counterexample). -/
theorem getChildren_root_sorted (root : FsNode) (loc : Path) (es : List Entry)
    (h : getChildren root (some loc) none = .ok es)
    (htypes : ∀ e ∈ es, e.type = FileType.File ∨ e.type = FileType.Directory) :
    es.Pairwise entryOrdered := by
  simp only [getChildren] at h
  cases hrd : _readDirectory root loc with
  | error e => rw [hrd] at h; simp at h
  | ok children =>
    rw [hrd] at h
    have hes : es = (jsSort entryLe children).map
        fun nt => mkEntry (loc ++ [nt.1]) nt.2 := by
      replace h : Except.ok ((jsSort entryLe children).map
          fun nt => mkEntry (loc ++ [nt.1]) nt.2) = Except.ok es := h
      simpa using h.symm
    subst hes
    rw [List.pairwise_map]
    have htypes2 : ∀ x ∈ children,
        x.2 = FileType.File ∨ x.2 = FileType.Directory := by
      intro x hx
      have hxm : x ∈ jsSort entryLe children :=
        (mem_jsSort entryLe x children).mpr hx
      have hmem : mkEntry (loc ++ [x.1]) x.2 ∈ (jsSort entryLe children).map
          (fun nt => mkEntry (loc ++ [nt.1]) nt.2) :=
        List.mem_map_of_mem _ hxm
      have := htypes _ hmem
      simpa [mkEntry_type] using this
    have hsorted := pairwise_jsSort entryLe entryLe_trans children
      (fun x hx y hy => entryLe_total_fd x y (htypes2 x hx) (htypes2 y hy))
    refine hsorted.imp_of_mem ?_
    intro a b ha hb hab
    have hta := htypes2 a ((mem_jsSort entryLe a children).mp ha)
    have htb := htypes2 b ((mem_jsSort entryLe b children).mp hb)
    rw [entryLe_eq_true_iff, entryCmp_le_iff] at hab
    unfold entryOrdered
    simp only [mkEntry_type, mkEntry_path, List.getLastD_concat]
    rcases hab with ⟨he, hl⟩ | ⟨hne, hdd⟩
    · exact Or.inr ⟨he, hl⟩
    · rcases htb with htb | htb
      · exact Or.inl ⟨hdd, htb⟩
      · exact absurd (hdd.trans htb.symm) hne

/-- Witness for the amended C1: the root listing of the example tree
with children b.sql, A, a.sql (A a directory) is returned sorted as
A, a.sql, b.sql, exactly the order of the specification example. -/
theorem getChildren_root_sorted_witness :
    List.Pairwise entryOrdered
      [mkEntry ["A"] FileType.Directory,
       mkEntry ["a.sql"] FileType.File,
       mkEntry ["b.sql"] FileType.File] :=
  getChildren_root_sorted exampleScripts []
    [mkEntry ["A"] FileType.Directory,
     mkEntry ["a.sql"] FileType.File,
     mkEntry ["b.sql"] FileType.File] (by rfl) (by decide)

/-- C4: rename with the overwrite option onto an existing destination
first recursively deletes the destination subtree and then performs the
move: the operation succeeds, the destination afterwards resolves to the
moved source node, and every path below the destination is determined by
the moved node alone, so no child of the previous destination subtree
remains and the listing of the destination parent shows the moved
entry. -/
theorem rename_overwrite_replaces (root : FsNode) (oldP newP : Path)
    (node dnode : FsNode)
    (hold : root.find oldP = some node)
    (hnew : root.find newP = some dnode)
    (hclean : dnode.clean = true)
    (h1 : pathLeq oldP newP = false) (h2 : pathLeq newP oldP = false)
    (hne2 : newP ≠ []) :
    ∃ root2, _rename root oldP newP true = .ok root2 ∧
      root2.find newP = some node ∧
      ∀ q, root2.find (newP ++ q) = node.find q := by
  obtain ⟨npre, nlast, rfl⟩ : ∃ npre nlast, newP = npre ++ [nlast] := by
    rcases List.eq_nil_or_concat newP with hh | ⟨npre, nlast, hh⟩
    · exact absurd hh hne2
    · exact ⟨npre, nlast, by simpa using hh⟩
  have hex : fsExists root (npre ++ [nlast]) = true := by
    simp [fsExists, hnew]
  have hrim : rimraf root (npre ++ [nlast]) =
      .ok (root.removeAt (npre ++ [nlast])) :=
    rimraf_clean root (npre ++ [nlast]) dnode hnew hclean hne2
  obtain ⟨csn, hnpre, _⟩ := find_parent_isDir root npre nlast dnode hnew
  have hr1eq : root.removeAt (npre ++ [nlast]) =
      root.setAt npre (.dir (removeAtIn csn nlast [])) :=
    removeAt_child npre nlast root csn hnpre
  have hr1npre : (root.removeAt (npre ++ [nlast])).find npre =
      some (.dir (removeAtIn csn nlast [])) := by
    rw [hr1eq]
    exact find_setAt_found npre root (.dir csn) _ hnpre
  have hpe : fsExists (root.removeAt (npre ++ [nlast])) npre = true := by
    simp [fsExists, hr1npre]
  have hr1old : (root.removeAt (npre ++ [nlast])).find oldP = some node := by
    rw [find_removeAt_div (npre ++ [nlast]) oldP root h2 h1]
    exact hold
  have hneq : ¬ oldP = npre ++ [nlast] := by
    intro hh
    rw [hh, pathLeq_refl] at h1
    exact Bool.noConfusion h1
  have hpol : pathLeq oldP npre = false := by
    cases hc : pathLeq oldP npre
    · rfl
    · exfalso
      have := pathLeq_trans oldP npre (npre ++ [nlast]) hc
        (pathLeq_append npre [nlast])
      rw [this] at h1
      exact Bool.noConfusion h1
  obtain ⟨csx, hcsx⟩ := find_removeAt_dir oldP npre
    (root.removeAt (npre ++ [nlast])) (removeAtIn csn nlast []) hpol hr1npre
  have hren : fsRenameOs (root.removeAt (npre ++ [nlast])) oldP
      (npre ++ [nlast]) =
      .ok (((root.removeAt (npre ++ [nlast])).removeAt oldP).setAt
        (npre ++ [nlast]) node) := by
    simp [fsRenameOs, hr1old, hneq, h1, List.dropLast_concat, hr1npre]
  refine ⟨((root.removeAt (npre ++ [nlast])).removeAt oldP).setAt
      (npre ++ [nlast]) node, ?_, ?_, ?_⟩
  · simp [_rename, hex, hrim, List.dropLast_concat, hpe, rename,
      handleResult, hren]
  · exact find_setAt_parent npre nlast
      ((root.removeAt (npre ++ [nlast])).removeAt oldP) node csx hcsx
  · intro q
    exact find_setAt_parent_append npre nlast q
      ((root.removeAt (npre ++ [nlast])).removeAt oldP) node csx hcsx

/-- Witness for C4 on the sample tree: moving f.txt onto the existing
directory d replaces the whole subtree of d by the file. -/
theorem rename_overwrite_replaces_witness :
    ∃ root2, _rename sampleRoot ["f.txt"] ["d"] true = .ok root2 ∧
      root2.find ["d"] = some (.file [3]) ∧
      ∀ q, root2.find (["d"] ++ q) = (FsNode.file [3]).find q :=
  rename_overwrite_replaces sampleRoot ["f.txt"] ["d"]
    (.file [3]) (.dir [("b.sql", .file [1]), ("A", .dir []), ("a.sql", .file [2])])
    rfl rfl rfl (by rfl) (by rfl) (by simp)

end Scripts
